import Mathlib

/-!
Verification of the fixed-step ODE integrator library (`MultiStep.py`) and the
comparative-statistics helper (`model.py`) of the renewable-energy-ode-solver
repository.  Machine floats are idealised as real numbers; the scipy root
finder `optimize.fsolve` is external library code and is modelled as an
explicit functional parameter `solver : (V -> V) -> V -> V` taking a residual
function and an initial guess.
-/

namespace MultiStep

/-- Python `int(x)` on a real argument: truncation toward zero. -/
noncomputable def pyInt (x : ℝ) : ℤ := if 0 ≤ x then ⌊x⌋ else ⌈x⌉

/-- The shared step count `num_steps = int((tf - t0) / h) + 1`. -/
noncomputable def numSteps (t0 tf h : ℝ) : ℤ := pyInt ((tf - t0) / h) + 1

/-- The i-th entry of `np.linspace(t0, tf, n)` (with `endpoint=True`):
for `n = 1` the single sample is `t0`; otherwise the spacing is
`(tf - t0) / (n - 1)`. -/
noncomputable def gridT (t0 tf : ℝ) (n : ℕ) (i : ℕ) : ℝ :=
  if n = 1 then t0 else t0 + i * ((tf - t0) / ((n : ℝ) - 1))

/-- The grid `np.linspace(t0, tf, n)` as a list of its `n` samples. -/
noncomputable def linspace (t0 tf : ℝ) (n : ℕ) : List ℝ :=
  (List.range n).map (gridT t0 tf n)

variable {V : Type*} [AddCommGroup V] [Module ℝ V]

/-- The solution entries of `adams_bashforth_2`, indexed by step number:
entry 0 is `x0`, entry 1 is the explicit-Euler bootstrap
`x0 + h * f(x0, t0)`, and entry `i + 2` follows the 2-step Adams-Bashforth
recurrence with coefficients `1.5` and `-0.5` read at the grid times. -/
noncomputable def ab2Aux (f : V → ℝ → V) (x0 : V) (t0 tf h : ℝ) (n : ℕ) :
    ℕ → V
  | 0 => x0
  | 1 => x0 + h • f x0 t0
  | (i + 2) =>
      let xm1 := ab2Aux f x0 t0 tf h n (i + 1)
      let xm2 := ab2Aux f x0 t0 tf h n i
      let k1 := f xm1 (gridT t0 tf n (i + 1))
      let k0 := f xm2 (gridT t0 tf n i)
      xm1 + h • ((3 / 2 : ℝ) • k1 - (1 / 2 : ℝ) • k0)

/-- Source method `CustomNumericalMethods.adams_bashforth_2`: returns the time grid and the
trajectory.  When `num_steps = 1` only `solution[0] = x0` is populated, which
coincides with mapping `ab2Aux` over the one-element index range. -/
noncomputable def adams_bashforth_2 (f : V → ℝ → V) (x0 : V)
    (t0 tf h : ℝ) : List ℝ × List V :=
  let n := (numSteps t0 tf h).toNat
  (linspace t0 tf n, (List.range n).map (ab2Aux f x0 t0 tf h n))

/-- The residual of the implicit Adams-Moulton equation built inside
`adams_moulton_2` for step `i`: the evaluator also computes the
Adams-Bashforth predictor, which is dead code (its value never reaches the
returned residual), kept here verbatim as unused bindings. -/
noncomputable def am2Residual (f : V → ℝ → V) (xm2 xm1 : V)
    (tm2 tm1 tcur h : ℝ) : V → V :=
  fun xNext =>
    let k1 := f xm1 tm1
    let k0 := f xm2 tm2
    let _xPred := xm1 + h • ((3 / 2 : ℝ) • k1 - (1 / 2 : ℝ) • k0)
    let kNext := f xNext tcur
    xNext - (xm1 + h • ((1 / 2 : ℝ) • kNext + (1 / 2 : ℝ) • k1))

/-- The 2-step Adams-Bashforth predictor value (the quantity the spec calls
the predictor for step `i` of the Adams-Moulton method). -/
noncomputable def ab2Predictor (f : V → ℝ → V) (xm2 xm1 : V)
    (tm2 tm1 h : ℝ) : V :=
  xm1 + h • ((3 / 2 : ℝ) • f xm1 tm1 - (1 / 2 : ℝ) • f xm2 tm2)

/-- The solution entries of `adams_moulton_2`: entries 0 and 1 as in
`ab2Aux`; entry `i + 2` is whatever the nonlinear solver returns on the
implicit residual, called with `solution[i+1]` as the initial guess. -/
noncomputable def am2Aux (solver : (V → V) → V → V) (f : V → ℝ → V)
    (x0 : V) (t0 tf h : ℝ) (n : ℕ) : ℕ → V
  | 0 => x0
  | 1 => x0 + h • f x0 t0
  | (i + 2) =>
      let xm1 := am2Aux solver f x0 t0 tf h n (i + 1)
      let xm2 := am2Aux solver f x0 t0 tf h n i
      solver
        (am2Residual f xm2 xm1 (gridT t0 tf n i) (gridT t0 tf n (i + 1))
          (gridT t0 tf n (i + 2)) h)
        xm1

/-- Source method `CustomNumericalMethods.adams_moulton_2`, parameterised by the nonlinear
stage solver standing for `optimize.fsolve`. -/
noncomputable def adams_moulton_2 (solver : (V → V) → V → V)
    (f : V → ℝ → V) (x0 : V) (t0 tf h : ℝ) : List ℝ × List V :=
  let n := (numSteps t0 tf h).toNat
  (linspace t0 tf n, (List.range n).map (am2Aux solver f x0 t0 tf h n))

/-- One classical explicit Runge-Kutta-4 step of size `h` from state `x` at
time `t`, exactly as in the bootstrap loop of `adams_bashforth_4`. -/
noncomputable def rk4Step (f : V → ℝ → V) (x : V) (t h : ℝ) : V :=
  let k1 := f x t
  let k2 := f (x + (1 / 2 * h) • k1) (t + 1 / 2 * h)
  let k3 := f (x + (1 / 2 * h) • k2) (t + 1 / 2 * h)
  let k4 := f (x + h • k3) (t + h)
  x + (h / 6) • (k1 + (2 : ℝ) • k2 + (2 : ℝ) • k3 + k4)

/-- The solution entries of `adams_bashforth_4`: entries 1 to 3 are RK4
bootstrap steps from the previous entry at the previous grid time; entry
`i + 4` follows the 4-step Adams-Bashforth recurrence. -/
noncomputable def ab4Aux (f : V → ℝ → V) (x0 : V) (t0 tf h : ℝ) (n : ℕ) :
    ℕ → V
  | 0 => x0
  | 1 => rk4Step f (ab4Aux f x0 t0 tf h n 0) (gridT t0 tf n 0) h
  | 2 => rk4Step f (ab4Aux f x0 t0 tf h n 1) (gridT t0 tf n 1) h
  | 3 => rk4Step f (ab4Aux f x0 t0 tf h n 2) (gridT t0 tf n 2) h
  | (i + 4) =>
      let km1 := f (ab4Aux f x0 t0 tf h n (i + 3)) (gridT t0 tf n (i + 3))
      let km2 := f (ab4Aux f x0 t0 tf h n (i + 2)) (gridT t0 tf n (i + 2))
      let km3 := f (ab4Aux f x0 t0 tf h n (i + 1)) (gridT t0 tf n (i + 1))
      let km4 := f (ab4Aux f x0 t0 tf h n i) (gridT t0 tf n i)
      ab4Aux f x0 t0 tf h n (i + 3) +
        h • ((55 / 24 : ℝ) • km1 - (59 / 24 : ℝ) • km2 +
          (37 / 24 : ℝ) • km3 - (9 / 24 : ℝ) • km4)

/-- Source method `CustomNumericalMethods.adams_bashforth_4`. -/
noncomputable def adams_bashforth_4 (f : V → ℝ → V) (x0 : V)
    (t0 tf h : ℝ) : List ℝ × List V :=
  let n := (numSteps t0 tf h).toNat
  (linspace t0 tf n, (List.range n).map (ab4Aux f x0 t0 tf h n))

/-- The stage coefficient `gamma = (3 - np.sqrt(3)) / 6` from `custom_dirk_method`. -/
noncomputable def dirkGamma : ℝ := (3 - Real.sqrt 3) / 6

/-- The inner stage residual of `custom_dirk_method` for a step starting at
state `xm1` and time `tPrev`:
`f(xm1 + h * gamma * k1, tPrev + h * gamma) - k1`. -/
noncomputable def stageResidual (f : V → ℝ → V) (xm1 : V)
    (tPrev h : ℝ) : V → V :=
  fun k1 => f (xm1 + (h * dirkGamma) • k1) (tPrev + h * dirkGamma) - k1

/-- The outer residual of `custom_dirk_method`: each evaluation first runs
the nonlinear solver on the inner stage residual with initial guess
`f(xm1, tPrev)` (the resulting `k1` does not depend on the outer unknown),
and returns `xm1 + h * k1 - xNext`. -/
noncomputable def dirkOuterResidual (solver : (V → V) → V → V)
    (f : V → ℝ → V) (xm1 : V) (tPrev h : ℝ) : V → V :=
  fun xNext =>
    let k1 := solver (stageResidual f xm1 tPrev h) (f xm1 tPrev)
    xm1 + h • k1 - xNext

/-- The solution entries of `custom_dirk_method`: entry `i + 1` is the
output of the nonlinear solver on the outer residual, with `solution[i]` as
the initial guess. -/
noncomputable def dirkAux (solver : (V → V) → V → V) (f : V → ℝ → V)
    (x0 : V) (t0 tf h : ℝ) (n : ℕ) : ℕ → V
  | 0 => x0
  | (i + 1) =>
      let xm1 := dirkAux solver f x0 t0 tf h n i
      solver (dirkOuterResidual solver f xm1 (gridT t0 tf n i) h) xm1

/-- Source method `CustomNumericalMethods.custom_dirk_method`, parameterised by the
nonlinear stage solver standing for `optimize.fsolve`. -/
noncomputable def custom_dirk_method (solver : (V → V) → V → V)
    (f : V → ℝ → V) (x0 : V) (t0 tf h : ℝ) : List ℝ × List V :=
  let n := (numSteps t0 tf h).toNat
  (linspace t0 tf n, (List.range n).map (dirkAux solver f x0 t0 tf h n))

/-- Variant of the DIRK step following the words of the spec: the stage
derivative `k1` is obtained from the inner solve only, and the new state is
the direct assignment `x + h * k1` with no outer root-find. -/
noncomputable def dirkDirectAux (solver : (V → V) → V → V)
    (f : V → ℝ → V) (x0 : V) (t0 tf h : ℝ) (n : ℕ) : ℕ → V
  | 0 => x0
  | (i + 1) =>
      let xm1 := dirkDirectAux solver f x0 t0 tf h n i
      let k1 := solver (stageResidual f xm1 (gridT t0 tf n i) h)
        (f xm1 (gridT t0 tf n i))
      xm1 + h • k1

/-- The spec-side DIRK integrator built from `dirkDirectAux`. -/
noncomputable def custom_dirk_direct (solver : (V → V) → V → V)
    (f : V → ℝ → V) (x0 : V) (t0 tf h : ℝ) : List ℝ × List V :=
  let n := (numSteps t0 tf h).toNat
  (linspace t0 tf n, (List.range n).map (dirkDirectAux solver f x0 t0 tf h n))

/-- A concrete scalar instance of the nonlinear stage solver: one secant
update from the two points `y` and `y + 1`.  On any nonconstant affine
residual it lands on the exact root, which makes it a convenient stand-in
for `optimize.fsolve` on the affine equations arising from constant
derivative functions. -/
noncomputable def secantSolver (g : ℝ → ℝ) (y : ℝ) : ℝ :=
  (y + 1) - g (y + 1) * ((y + 1) - y) / (g (y + 1) - g y)

end MultiStep

namespace Model

/-- The additive constant `1e-10` placed in every relative-error denominator
by `compute_method_statistics`. -/
def relEps : ℚ := 1 / 10000000000

/-- A single relative-error denominator: `np.abs(ref_sol) + 1e-10`,
elementwise. -/
def relDenom (b : ℚ) : ℚ := |b| + relEps

/-- The error array `abs_error = np.abs(sol - ref_sol)`, elementwise over a pair of
trajectories (lists of state vectors). -/
def absError (sol ref : List (List ℚ)) : List (List ℚ) :=
  List.zipWith (List.zipWith fun a b => |a - b|) sol ref

/-- The error array `rel_error = abs_error / (np.abs(ref_sol) + 1e-10)`, elementwise. -/
def relError (sol ref : List (List ℚ)) : List (List ℚ) :=
  List.zipWith (List.zipWith fun a b => |a - b| / relDenom b) sol ref

/-- The statistic `max_abs_error = np.max(abs_error)`: the maximum over all entries of the
elementwise absolute error (as `WithBot` so the empty case is explicit,
where numpy would raise). -/
def maxAbsError (sol ref : List (List ℚ)) : WithBot ℚ :=
  (absError sol ref).flatten.maximum

end Model

namespace MultiStep

variable {V : Type*} [AddCommGroup V] [Module ℝ V]

/-- Indexing a mapped range with `getD` inside the range evaluates the map. -/
theorem getD_map_range {α : Type*} (g : ℕ → α) {n i : ℕ} (hi : i < n)
    (d : α) : (((List.range n).map g).getD i d) = g i := by
  rw [List.getD_eq_getElem _ _ (by simpa using hi)]
  simp

/-- Under the calling contract `t0 ≤ tf`, `0 < h`, the step count is the
floor formula of the spec and is at least 1. -/
theorem numSteps_toNat (t0 tf h : ℝ) (hle : t0 ≤ tf) (hh : 0 < h) :
    ((numSteps t0 tf h).toNat : ℤ) = ⌊(tf - t0) / h⌋ + 1 := by
  have hq : 0 ≤ (tf - t0) / h := div_nonneg (by linarith) hh.le
  have hfl : 0 ≤ ⌊(tf - t0) / h⌋ := Int.floor_nonneg.mpr hq
  rw [numSteps, pyInt, if_pos hq, Int.toNat_of_nonneg (by omega)]

/-- The step count is positive under the calling contract. -/
theorem numSteps_pos (t0 tf h : ℝ) (hle : t0 ≤ tf) (hh : 0 < h) :
    0 < (numSteps t0 tf h).toNat := by
  have h1 := numSteps_toNat t0 tf h hle hh
  have hq : 0 ≤ (tf - t0) / h := div_nonneg (by linarith) hh.le
  have hfl : 0 ≤ ⌊(tf - t0) / h⌋ := Int.floor_nonneg.mpr hq
  omega

/-- The first grid sample is the start time. -/
theorem gridT_zero (t0 tf : ℝ) (n : ℕ) : gridT t0 tf n 0 = t0 := by
  unfold gridT; split <;> simp

/-- Consecutive grid samples differ by the linspace spacing
`(tf - t0) / (n - 1)`. -/
theorem gridT_spacing (t0 tf : ℝ) {n : ℕ} (i : ℕ) (hi : i + 1 < n) :
    gridT t0 tf n (i + 1) - gridT t0 tf n i = (tf - t0) / ((n : ℝ) - 1) := by
  have hn : n ≠ 1 := by omega
  unfold gridT
  rw [if_neg hn, if_neg hn]
  push_cast
  ring

/-- The last grid sample is exactly the end time when the grid has at least
two points. -/
theorem gridT_last (t0 tf : ℝ) {n : ℕ} (hn : 2 ≤ n) :
    gridT t0 tf n (n - 1) = tf := by
  have hn1 : n ≠ 1 := by omega
  have hne : (n : ℝ) - 1 ≠ 0 := by
    have : (2 : ℝ) ≤ (n : ℝ) := by exact_mod_cast hn
    linarith
  unfold gridT
  rw [if_neg hn1]
  have hcast : ((n - 1 : ℕ) : ℝ) = (n : ℝ) - 1 := by
    have : (1 : ℕ) ≤ n := by omega
    push_cast [this]
    ring
  rw [hcast]
  field_simp

/-- The grid returned by `adams_bashforth_2` is the linspace grid. -/
theorem ab2_fst (f : V → ℝ → V) (x0 : V) (t0 tf h : ℝ) :
    (adams_bashforth_2 f x0 t0 tf h).1 =
      linspace t0 tf (numSteps t0 tf h).toNat := rfl

/-- The trajectory returned by `adams_bashforth_2` maps `ab2Aux` over the
index range. -/
theorem ab2_snd (f : V → ℝ → V) (x0 : V) (t0 tf h : ℝ) :
    (adams_bashforth_2 f x0 t0 tf h).2 =
      (List.range (numSteps t0 tf h).toNat).map
        (ab2Aux f x0 t0 tf h (numSteps t0 tf h).toNat) := rfl

/-- The grid returned by `adams_bashforth_4` is the linspace grid. -/
theorem ab4_fst (f : V → ℝ → V) (x0 : V) (t0 tf h : ℝ) :
    (adams_bashforth_4 f x0 t0 tf h).1 =
      linspace t0 tf (numSteps t0 tf h).toNat := rfl

/-- The trajectory returned by `adams_bashforth_4` maps `ab4Aux` over the
index range. -/
theorem ab4_snd (f : V → ℝ → V) (x0 : V) (t0 tf h : ℝ) :
    (adams_bashforth_4 f x0 t0 tf h).2 =
      (List.range (numSteps t0 tf h).toNat).map
        (ab4Aux f x0 t0 tf h (numSteps t0 tf h).toNat) := rfl

/-- The grid returned by `adams_moulton_2` is the linspace grid. -/
theorem am2_fst (solver : (V → V) → V → V) (f : V → ℝ → V) (x0 : V)
    (t0 tf h : ℝ) :
    (adams_moulton_2 solver f x0 t0 tf h).1 =
      linspace t0 tf (numSteps t0 tf h).toNat := rfl

/-- The trajectory returned by `adams_moulton_2` maps `am2Aux` over the
index range. -/
theorem am2_snd (solver : (V → V) → V → V) (f : V → ℝ → V) (x0 : V)
    (t0 tf h : ℝ) :
    (adams_moulton_2 solver f x0 t0 tf h).2 =
      (List.range (numSteps t0 tf h).toNat).map
        (am2Aux solver f x0 t0 tf h (numSteps t0 tf h).toNat) := rfl

/-- The grid returned by `custom_dirk_method` is the linspace grid. -/
theorem dirk_fst (solver : (V → V) → V → V) (f : V → ℝ → V) (x0 : V)
    (t0 tf h : ℝ) :
    (custom_dirk_method solver f x0 t0 tf h).1 =
      linspace t0 tf (numSteps t0 tf h).toNat := rfl

/-- The trajectory returned by `custom_dirk_method` maps `dirkAux` over the
index range. -/
theorem dirk_snd (solver : (V → V) → V → V) (f : V → ℝ → V) (x0 : V)
    (t0 tf h : ℝ) :
    (custom_dirk_method solver f x0 t0 tf h).2 =
      (List.range (numSteps t0 tf h).toNat).map
        (dirkAux solver f x0 t0 tf h (numSteps t0 tf h).toNat) := rfl

/-- Length of the linspace grid. -/
theorem linspace_length (t0 tf : ℝ) (n : ℕ) :
    (linspace t0 tf n).length = n := by simp [linspace]

/-- In-range entries of the linspace grid. -/
theorem linspace_getD (t0 tf : ℝ) {n i : ℕ} (hi : i < n) :
    (linspace t0 tf n).getD i 0 = gridT t0 tf n i :=
  getD_map_range _ hi _

/-- The grid/trajectory shape contract shared by all four integrators, for
any per-index solution function whose entry 0 is the initial state. -/
theorem gridTrajSpec {x0 : V} (t0 tf h : ℝ) (hle : t0 ≤ tf) (hh : 0 < h)
    (aux : ℕ → V) (h0 : aux 0 = x0) :
    (((linspace t0 tf (numSteps t0 tf h).toNat).length : ℤ) =
        ⌊(tf - t0) / h⌋ + 1) ∧
    (linspace t0 tf (numSteps t0 tf h).toNat).getD 0 0 = t0 ∧
    (∀ i, i + 1 < (linspace t0 tf (numSteps t0 tf h).toNat).length →
      (linspace t0 tf (numSteps t0 tf h).toNat).getD (i + 1) 0 -
        (linspace t0 tf (numSteps t0 tf h).toNat).getD i 0 =
        (tf - t0) /
          (((linspace t0 tf (numSteps t0 tf h).toNat).length : ℝ) - 1)) ∧
    ((List.range (numSteps t0 tf h).toNat).map aux).length =
      (linspace t0 tf (numSteps t0 tf h).toNat).length ∧
    ((List.range (numSteps t0 tf h).toNat).map aux).getD 0 0 = x0 := by
  have hpos := numSteps_pos t0 tf h hle hh
  refine ⟨?_, ?_, ?_, ?_, ?_⟩
  · rw [linspace_length]; exact numSteps_toNat t0 tf h hle hh
  · rw [linspace_getD t0 tf hpos, gridT_zero]
  · intro i hi
    rw [linspace_length] at hi
    rw [linspace_getD t0 tf hi, linspace_getD t0 tf (by omega),
      linspace_length, gridT_spacing t0 tf i hi]
  · rw [linspace_length]; simp
  · rw [getD_map_range _ hpos, h0]

/-- Evaluation rule for the step count from floor bounds on `(tf - t0)/h`. -/
theorem numSteps_toNat_eq (k : ℕ) {t0 tf h : ℝ}
    (h1 : (k : ℝ) ≤ (tf - t0) / h) (h2 : (tf - t0) / h < k + 1) :
    (numSteps t0 tf h).toNat = k + 1 := by
  have h0 : 0 ≤ (tf - t0) / h := le_trans (by positivity) h1
  have hf : ⌊(tf - t0) / h⌋ = (k : ℤ) :=
    Int.floor_eq_iff.mpr ⟨by exact_mod_cast h1, by push_cast; exact h2⟩
  unfold numSteps pyInt
  rw [if_pos h0, hf]
  omega

end MultiStep

open MultiStep

/-- C1 (amended): for every call to any of the four integrators with
`tf >= t0` and `h > 0`, the returned time grid has length
`floor((tf - t0)/h) + 1` and its first element is `t0`; consecutive grid
points differ by the linspace spacing `(tf - t0)/(n - 1)` (not by the
requested step size `h`, which the counterexample shows can differ); the
trajectory has the same length as the grid and its first element is exactly
the initial state. -/
theorem C1_grid_and_trajectory_shape {V : Type*} [AddCommGroup V]
    [Module ℝ V] (solver : (V → V) → V → V) (f : V → ℝ → V) (x0 : V)
    (t0 tf h : ℝ) (hle : t0 ≤ tf) (hh : 0 < h) :
    ∀ out ∈ [adams_bashforth_2 f x0 t0 tf h,
             adams_bashforth_4 f x0 t0 tf h,
             adams_moulton_2 solver f x0 t0 tf h,
             custom_dirk_method solver f x0 t0 tf h],
      ((out.1.length : ℤ) = ⌊(tf - t0) / h⌋ + 1) ∧
      out.1.getD 0 0 = t0 ∧
      (∀ i, i + 1 < out.1.length →
        out.1.getD (i + 1) 0 - out.1.getD i 0 =
          (tf - t0) / ((out.1.length : ℝ) - 1)) ∧
      out.2.length = out.1.length ∧
      out.2.getD 0 0 = x0 := by
  intro out hout
  simp only [List.mem_cons, List.not_mem_nil, or_false] at hout
  rcases hout with h1 | h1 | h1 | h1 <;> subst h1
  · rw [ab2_fst, ab2_snd]
    exact gridTrajSpec t0 tf h hle hh _ rfl
  · rw [ab4_fst, ab4_snd]
    exact gridTrajSpec t0 tf h hle hh _ rfl
  · rw [am2_fst, am2_snd]
    exact gridTrajSpec t0 tf h hle hh _ rfl
  · rw [dirk_fst, dirk_snd]
    exact gridTrajSpec t0 tf h hle hh _ rfl

/-- C1 counterexample: at `t0 = 0`, `tf = 1`, `h = 2/5` the grid is
`[0, 1/2, 1]`, so consecutive grid points do NOT differ by the requested
step size `h = 2/5`. -/
theorem C1_counterexample :
    (adams_bashforth_2 (fun (_ : ℝ) (_ : ℝ) => (0 : ℝ)) 0 0 1 (2/5)).1.getD 1 0 -
      (adams_bashforth_2 (fun (_ : ℝ) (_ : ℝ) => (0 : ℝ)) 0 0 1 (2/5)).1.getD 0 0 ≠
      2/5 := by
  have hn : (numSteps (0 : ℝ) 1 (2/5)).toNat = 3 :=
    numSteps_toNat_eq 2 (by norm_num) (by norm_num)
  rw [ab2_fst, hn, linspace_getD 0 1 (by norm_num), linspace_getD 0 1 (by norm_num)]
  norm_num [gridT]

/-- C1 witness: the amended statement applied at a concrete call. -/
theorem C1_witness :
    (0 : ℝ) ≤ 1 ∧ (0 : ℝ) < 2/5 ∧
    ∀ out ∈ [adams_bashforth_2 (fun (x : ℝ) (_ : ℝ) => -x) 1 0 1 (2/5),
             adams_bashforth_4 (fun (x : ℝ) (_ : ℝ) => -x) 1 0 1 (2/5),
             adams_moulton_2 (fun _ y => y) (fun (x : ℝ) (_ : ℝ) => -x) 1 0 1 (2/5),
             custom_dirk_method (fun _ y => y) (fun (x : ℝ) (_ : ℝ) => -x) 1 0 1 (2/5)],
      ((out.1.length : ℤ) = ⌊((1 : ℝ) - 0) / (2/5)⌋ + 1) ∧
      out.1.getD 0 0 = 0 ∧
      (∀ i, i + 1 < out.1.length →
        out.1.getD (i + 1) 0 - out.1.getD i 0 =
          ((1 : ℝ) - 0) / ((out.1.length : ℝ) - 1)) ∧
      out.2.length = out.1.length ∧
      out.2.getD 0 0 = 1 :=
  ⟨by norm_num, by norm_num,
    C1_grid_and_trajectory_shape (fun _ y => y) (fun x _ => -x) 1 0 1 (2/5)
      (by norm_num) (by norm_num)⟩

/-- C10: for every call whose grid has at least two points, the last grid
entry equals `tf` exactly, the constant grid spacing is
`(tf - t0)/(n - 1)`, and whenever `tf - t0` is not an integer multiple of
`h` this spacing differs from the requested step size `h` (even though the
update formulas advance the state by `h` per step, as proved for C2 to C5). -/
theorem C10_grid_endpoint_and_spacing {V : Type*} [AddCommGroup V]
    [Module ℝ V] (solver : (V → V) → V → V) (f : V → ℝ → V) (x0 : V)
    (t0 tf h : ℝ) (hle : t0 ≤ tf) (hh : 0 < h)
    (hn2 : 2 ≤ (numSteps t0 tf h).toNat) :
    ∀ out ∈ [adams_bashforth_2 f x0 t0 tf h,
             adams_bashforth_4 f x0 t0 tf h,
             adams_moulton_2 solver f x0 t0 tf h,
             custom_dirk_method solver f x0 t0 tf h],
      out.1.getD (out.1.length - 1) 0 = tf ∧
      (∀ i, i + 1 < out.1.length →
        out.1.getD (i + 1) 0 - out.1.getD i 0 =
          (tf - t0) / ((out.1.length : ℝ) - 1)) ∧
      ((¬ ∃ m : ℤ, tf - t0 = m * h) →
        (tf - t0) / ((out.1.length : ℝ) - 1) ≠ h) := by
  have key : (linspace t0 tf (numSteps t0 tf h).toNat).getD
        ((linspace t0 tf (numSteps t0 tf h).toNat).length - 1) 0 = tf ∧
      (∀ i, i + 1 < (linspace t0 tf (numSteps t0 tf h).toNat).length →
        (linspace t0 tf (numSteps t0 tf h).toNat).getD (i + 1) 0 -
          (linspace t0 tf (numSteps t0 tf h).toNat).getD i 0 =
          (tf - t0) /
            (((linspace t0 tf (numSteps t0 tf h).toNat).length : ℝ) - 1)) ∧
      ((¬ ∃ m : ℤ, tf - t0 = m * h) →
        (tf - t0) /
          (((linspace t0 tf (numSteps t0 tf h).toNat).length : ℝ) - 1) ≠ h) := by
    refine ⟨?_, ?_, ?_⟩
    · rw [linspace_length, linspace_getD t0 tf (by omega), gridT_last t0 tf hn2]
    · intro i hi
      rw [linspace_length] at hi
      rw [linspace_getD t0 tf hi, linspace_getD t0 tf (by omega),
        linspace_length, gridT_spacing t0 tf i hi]
    · intro hnm heq
      apply hnm
      refine ⟨((numSteps t0 tf h).toNat : ℤ) - 1, ?_⟩
      rw [linspace_length] at heq
      have hne : ((numSteps t0 tf h).toNat : ℝ) - 1 ≠ 0 := by
        have : (2 : ℝ) ≤ ((numSteps t0 tf h).toNat : ℝ) := by exact_mod_cast hn2
        linarith
      have hmul : tf - t0 = (((numSteps t0 tf h).toNat : ℝ) - 1) * h := by
        field_simp at heq
        linarith [heq]
      rw [hmul]
      push_cast
      ring
  intro out hout
  simp only [List.mem_cons, List.not_mem_nil, or_false] at hout
  rcases hout with h1 | h1 | h1 | h1 <;> subst h1
  · rw [ab2_fst]; exact key
  · rw [ab4_fst]; exact key
  · rw [am2_fst]; exact key
  · rw [dirk_fst]; exact key

/-- C10 witness: the theorem applied at `t0 = 0`, `tf = 1`, `h = 2/5`,
where the grid has 3 points and `2/5` does not divide `1`. -/
theorem C10_witness :
    (0 : ℝ) ≤ 1 ∧ (0 : ℝ) < 2/5 ∧ 2 ≤ (numSteps (0 : ℝ) 1 (2/5)).toNat ∧
    ∀ out ∈ [adams_bashforth_2 (fun (x : ℝ) (_ : ℝ) => -x) 1 0 1 (2/5),
             adams_bashforth_4 (fun (x : ℝ) (_ : ℝ) => -x) 1 0 1 (2/5),
             adams_moulton_2 (fun _ y => y) (fun (x : ℝ) (_ : ℝ) => -x) 1 0 1 (2/5),
             custom_dirk_method (fun _ y => y) (fun (x : ℝ) (_ : ℝ) => -x) 1 0 1 (2/5)],
      out.1.getD (out.1.length - 1) 0 = 1 ∧
      (∀ i, i + 1 < out.1.length →
        out.1.getD (i + 1) 0 - out.1.getD i 0 =
          ((1 : ℝ) - 0) / ((out.1.length : ℝ) - 1)) ∧
      ((¬ ∃ m : ℤ, (1 : ℝ) - 0 = m * (2/5)) →
        ((1 : ℝ) - 0) / ((out.1.length : ℝ) - 1) ≠ 2/5) :=
  ⟨by norm_num,
   by norm_num,
   by rw [numSteps_toNat_eq 2 (by norm_num) (by norm_num)]; omega,
   C10_grid_endpoint_and_spacing (fun _ y => y) (fun x _ => -x) 1 0 1 (2/5)
     (by norm_num) (by norm_num)
     (by rw [numSteps_toNat_eq 2 (by norm_num) (by norm_num)]; omega)⟩

/-- C7: when `tf = t0` the computed grid has exactly one point; every
method returns the grid `[t0]` and the single-point trajectory `[x0]`, for
every derivative function and every solver — in particular the output does
not depend on `f`, reflecting that `f` is never invoked. -/
theorem C7_one_point_grid {V : Type*} [AddCommGroup V] [Module ℝ V]
    (solver : (V → V) → V → V) (f : V → ℝ → V) (x0 : V) (t0 h : ℝ)
    (hh : 0 < h) :
    adams_bashforth_2 f x0 t0 t0 h = ([t0], [x0]) ∧
    adams_bashforth_4 f x0 t0 t0 h = ([t0], [x0]) ∧
    adams_moulton_2 solver f x0 t0 t0 h = ([t0], [x0]) ∧
    custom_dirk_method solver f x0 t0 t0 h = ([t0], [x0]) := by
  have hn : (numSteps t0 t0 h).toNat = 1 := by
    have h0 : (t0 - t0) / h = 0 := by simp
    unfold numSteps pyInt
    rw [h0, if_pos le_rfl, Int.floor_zero]
    rfl
  have hgrid : linspace t0 t0 (numSteps t0 t0 h).toNat = [t0] := by
    rw [hn]
    simp [linspace, List.range_succ, gridT]
  refine ⟨?_, ?_, ?_, ?_⟩
  · refine Prod.ext hgrid ?_
    rw [ab2_snd, hn]
    simp [List.range_succ, ab2Aux]
  · refine Prod.ext hgrid ?_
    rw [ab4_snd, hn]
    simp [List.range_succ, ab4Aux]
  · refine Prod.ext hgrid ?_
    rw [am2_snd, hn]
    simp [List.range_succ, am2Aux]
  · refine Prod.ext hgrid ?_
    rw [dirk_snd, hn]
    simp [List.range_succ, dirkAux]

/-- C7 witness: the theorem applied at a concrete one-point call. -/
theorem C7_witness :
    (0 : ℝ) < 1 ∧
    adams_bashforth_2 (fun (x : ℝ) (_ : ℝ) => -x) 5 2 2 1 = ([2], [5]) ∧
    adams_bashforth_4 (fun (x : ℝ) (_ : ℝ) => -x) 5 2 2 1 = ([2], [5]) ∧
    adams_moulton_2 (fun _ y => y) (fun (x : ℝ) (_ : ℝ) => -x) 5 2 2 1 =
      ([2], [5]) ∧
    custom_dirk_method (fun _ y => y) (fun (x : ℝ) (_ : ℝ) => -x) 5 2 2 1 =
      ([2], [5]) :=
  ⟨by norm_num,
    C7_one_point_grid (fun _ y => y) (fun x _ => -x) 5 2 1 (by norm_num)⟩

/-- C5: in `adams_bashforth_2`, when the grid has more than one point,
trajectory entry 1 is the explicit-Euler step `x0 + h * f(x0, t0)`, and for
every step index `i + 2` below the grid length the entry satisfies the
2-step Adams-Bashforth recurrence with coefficients `1.5` and `-0.5`
evaluated at the previous two trajectory entries and grid times. -/
theorem C5_ab2_formulas {V : Type*} [AddCommGroup V] [Module ℝ V]
    (f : V → ℝ → V) (x0 : V) (t0 tf h : ℝ) :
    (1 < (numSteps t0 tf h).toNat →
      (adams_bashforth_2 f x0 t0 tf h).2.getD 1 0 = x0 + h • f x0 t0) ∧
    (∀ i, i + 2 < (numSteps t0 tf h).toNat →
      (adams_bashforth_2 f x0 t0 tf h).2.getD (i + 2) 0 =
        (adams_bashforth_2 f x0 t0 tf h).2.getD (i + 1) 0 +
          h • ((3 / 2 : ℝ) •
              f ((adams_bashforth_2 f x0 t0 tf h).2.getD (i + 1) 0)
                ((adams_bashforth_2 f x0 t0 tf h).1.getD (i + 1) 0) -
            (1 / 2 : ℝ) •
              f ((adams_bashforth_2 f x0 t0 tf h).2.getD i 0)
                ((adams_bashforth_2 f x0 t0 tf h).1.getD i 0))) := by
  constructor
  · intro h1
    rw [ab2_snd, getD_map_range _ h1]
    simp [ab2Aux]
  · intro i hi
    rw [ab2_snd, ab2_fst, getD_map_range _ hi, getD_map_range _ (by omega),
      getD_map_range _ (by omega), linspace_getD t0 tf (by omega),
      linspace_getD t0 tf (by omega)]
    rw [ab2Aux]

/-- C5 witness: the Euler bootstrap and the first multistep update of the
theorem at a concrete call with an 11-point grid. -/
theorem C5_witness :
    (1 < (numSteps (0 : ℝ) 1 (1/10)).toNat ∧
      (adams_bashforth_2 (fun (x : ℝ) (_ : ℝ) => -x) 1 0 1 (1/10)).2.getD 1 0 =
        1 + (1/10 : ℝ) * (-1)) ∧
    (0 + 2 < (numSteps (0 : ℝ) 1 (1/10)).toNat ∧
      (adams_bashforth_2 (fun (x : ℝ) (_ : ℝ) => -x) 1 0 1 (1/10)).2.getD 2 0 =
        (adams_bashforth_2 (fun (x : ℝ) (_ : ℝ) => -x) 1 0 1 (1/10)).2.getD 1 0 +
          (1/10 : ℝ) • ((3 / 2 : ℝ) •
              -((adams_bashforth_2 (fun (x : ℝ) (_ : ℝ) => -x) 1 0 1 (1/10)).2.getD 1 0) -
            (1 / 2 : ℝ) •
              -((adams_bashforth_2 (fun (x : ℝ) (_ : ℝ) => -x) 1 0 1 (1/10)).2.getD 0 0))) := by
  have hn : (numSteps (0 : ℝ) 1 (1/10)).toNat = 11 :=
    numSteps_toNat_eq 10 (by norm_num) (by norm_num)
  constructor
  · refine ⟨by omega, ?_⟩
    have h1 := (C5_ab2_formulas (fun (x : ℝ) (_ : ℝ) => -x) 1 0 1 (1/10)).1
      (by omega)
    rw [h1]
    norm_num
  · refine ⟨by omega, ?_⟩
    have h2 := (C5_ab2_formulas (fun (x : ℝ) (_ : ℝ) => -x) 1 0 1 (1/10)).2 0
      (by omega)
    simpa using h2

/-- C4: in `adams_bashforth_4`, trajectory entries 1 through 3 (those below
the grid length) are each one classical RK4 step of size `h` from the
previous entry at the previous grid time, and every entry with index
`i + 4` below the grid length satisfies the 4-step Adams-Bashforth
recurrence with coefficients `55/24, -59/24, 37/24, -9/24` applied to the
derivative at the four previous trajectory entries and grid times. -/
theorem C4_ab4_formulas {V : Type*} [AddCommGroup V] [Module ℝ V]
    (f : V → ℝ → V) (x0 : V) (t0 tf h : ℝ) :
    (∀ i, i ≤ 2 → i + 1 < (numSteps t0 tf h).toNat →
      (adams_bashforth_4 f x0 t0 tf h).2.getD (i + 1) 0 =
        rk4Step f ((adams_bashforth_4 f x0 t0 tf h).2.getD i 0)
          ((adams_bashforth_4 f x0 t0 tf h).1.getD i 0) h) ∧
    (∀ i, i + 4 < (numSteps t0 tf h).toNat →
      (adams_bashforth_4 f x0 t0 tf h).2.getD (i + 4) 0 =
        (adams_bashforth_4 f x0 t0 tf h).2.getD (i + 3) 0 +
          h • ((55 / 24 : ℝ) •
              f ((adams_bashforth_4 f x0 t0 tf h).2.getD (i + 3) 0)
                ((adams_bashforth_4 f x0 t0 tf h).1.getD (i + 3) 0) -
            (59 / 24 : ℝ) •
              f ((adams_bashforth_4 f x0 t0 tf h).2.getD (i + 2) 0)
                ((adams_bashforth_4 f x0 t0 tf h).1.getD (i + 2) 0) +
            (37 / 24 : ℝ) •
              f ((adams_bashforth_4 f x0 t0 tf h).2.getD (i + 1) 0)
                ((adams_bashforth_4 f x0 t0 tf h).1.getD (i + 1) 0) -
            (9 / 24 : ℝ) •
              f ((adams_bashforth_4 f x0 t0 tf h).2.getD i 0)
                ((adams_bashforth_4 f x0 t0 tf h).1.getD i 0))) := by
  constructor
  · intro i hi2 hi
    rw [ab4_snd, ab4_fst, getD_map_range _ hi, getD_map_range _ (by omega),
      linspace_getD t0 tf (by omega)]
    interval_cases i
    · simp [ab4Aux]
    · simp [ab4Aux]
    · simp [ab4Aux]
  · intro i hi
    rw [ab4_snd, ab4_fst, getD_map_range _ hi, getD_map_range _ (by omega),
      getD_map_range _ (by omega), getD_map_range _ (by omega),
      getD_map_range _ (by omega), linspace_getD t0 tf (by omega),
      linspace_getD t0 tf (by omega), linspace_getD t0 tf (by omega),
      linspace_getD t0 tf (by omega)]
    rw [ab4Aux]

/-- C4 witness: the first RK4 bootstrap step and the first multistep update
of the theorem at a concrete call with an 11-point grid. -/
theorem C4_witness :
    ((0 : ℕ) ≤ 2 ∧ 0 + 1 < (numSteps (0 : ℝ) 1 (1/10)).toNat ∧
      (adams_bashforth_4 (fun (x : ℝ) (_ : ℝ) => -x) 1 0 1 (1/10)).2.getD 1 0 =
        rk4Step (fun (x : ℝ) (_ : ℝ) => -x)
          ((adams_bashforth_4 (fun (x : ℝ) (_ : ℝ) => -x) 1 0 1 (1/10)).2.getD 0 0)
          ((adams_bashforth_4 (fun (x : ℝ) (_ : ℝ) => -x) 1 0 1 (1/10)).1.getD 0 0)
          (1/10)) ∧
    (0 + 4 < (numSteps (0 : ℝ) 1 (1/10)).toNat ∧
      (adams_bashforth_4 (fun (x : ℝ) (_ : ℝ) => -x) 1 0 1 (1/10)).2.getD 4 0 =
        (adams_bashforth_4 (fun (x : ℝ) (_ : ℝ) => -x) 1 0 1 (1/10)).2.getD 3 0 +
          (1/10 : ℝ) • ((55 / 24 : ℝ) •
              -((adams_bashforth_4 (fun (x : ℝ) (_ : ℝ) => -x) 1 0 1 (1/10)).2.getD 3 0) -
            (59 / 24 : ℝ) •
              -((adams_bashforth_4 (fun (x : ℝ) (_ : ℝ) => -x) 1 0 1 (1/10)).2.getD 2 0) +
            (37 / 24 : ℝ) •
              -((adams_bashforth_4 (fun (x : ℝ) (_ : ℝ) => -x) 1 0 1 (1/10)).2.getD 1 0) -
            (9 / 24 : ℝ) •
              -((adams_bashforth_4 (fun (x : ℝ) (_ : ℝ) => -x) 1 0 1 (1/10)).2.getD 0 0))) := by
  have hn : (numSteps (0 : ℝ) 1 (1/10)).toNat = 11 :=
    numSteps_toNat_eq 10 (by norm_num) (by norm_num)
  constructor
  · refine ⟨by omega, by omega, ?_⟩
    exact (C4_ab4_formulas (fun (x : ℝ) (_ : ℝ) => -x) 1 0 1 (1/10)).1 0
      (by omega) (by omega)
  · refine ⟨by omega, ?_⟩
    have h2 := (C4_ab4_formulas (fun (x : ℝ) (_ : ℝ) => -x) 1 0 1 (1/10)).2 0
      (by omega)
    simpa using h2

/-- C8: for every solver function (converged or not), `adams_moulton_2` and
`custom_dirk_method` return a trajectory exactly covering the computed grid,
and each implicit step stores the value the solver returned — the output of
`solver` on that step residual with the previous state as initial guess —
with no convergence check or error signal. -/
theorem C8_solver_output_stored_unconditionally {V : Type*} [AddCommGroup V]
    [Module ℝ V] (solver : (V → V) → V → V) (f : V → ℝ → V) (x0 : V)
    (t0 tf h : ℝ) :
    ((adams_moulton_2 solver f x0 t0 tf h).2.length =
      (adams_moulton_2 solver f x0 t0 tf h).1.length) ∧
    ((custom_dirk_method solver f x0 t0 tf h).2.length =
      (custom_dirk_method solver f x0 t0 tf h).1.length) ∧
    (∀ i, i + 2 < (numSteps t0 tf h).toNat →
      (adams_moulton_2 solver f x0 t0 tf h).2.getD (i + 2) 0 =
        solver
          (am2Residual f ((adams_moulton_2 solver f x0 t0 tf h).2.getD i 0)
            ((adams_moulton_2 solver f x0 t0 tf h).2.getD (i + 1) 0)
            (gridT t0 tf (numSteps t0 tf h).toNat i)
            (gridT t0 tf (numSteps t0 tf h).toNat (i + 1))
            (gridT t0 tf (numSteps t0 tf h).toNat (i + 2)) h)
          ((adams_moulton_2 solver f x0 t0 tf h).2.getD (i + 1) 0)) ∧
    (∀ i, i + 1 < (numSteps t0 tf h).toNat →
      (custom_dirk_method solver f x0 t0 tf h).2.getD (i + 1) 0 =
        solver
          (dirkOuterResidual solver f
            ((custom_dirk_method solver f x0 t0 tf h).2.getD i 0)
            (gridT t0 tf (numSteps t0 tf h).toNat i) h)
          ((custom_dirk_method solver f x0 t0 tf h).2.getD i 0)) := by
  refine ⟨?_, ?_, ?_, ?_⟩
  · rw [am2_snd, am2_fst, linspace_length]; simp
  · rw [dirk_snd, dirk_fst, linspace_length]; simp
  · intro i hi
    rw [am2_snd, getD_map_range _ hi, getD_map_range _ (by omega),
      getD_map_range _ (by omega)]
    rw [am2Aux]
  · intro i hi
    rw [dirk_snd, getD_map_range _ hi, getD_map_range _ (by omega)]
    rw [dirkAux]

/-- C8 witness: the theorem applied with a degenerate solver that ignores
its residual and returns the initial guess unchanged — the integrators
still return full-length trajectories storing exactly these values. -/
theorem C8_witness :
    ((adams_moulton_2 (fun (_ : ℝ → ℝ) y => y + 1) (fun (x : ℝ) (_ : ℝ) => -x)
        1 0 1 (1/10)).2.length =
      (adams_moulton_2 (fun (_ : ℝ → ℝ) y => y + 1) (fun (x : ℝ) (_ : ℝ) => -x)
        1 0 1 (1/10)).1.length) ∧
    (0 + 2 < (numSteps (0 : ℝ) 1 (1/10)).toNat ∧
      (adams_moulton_2 (fun (_ : ℝ → ℝ) y => y + 1) (fun (x : ℝ) (_ : ℝ) => -x)
          1 0 1 (1/10)).2.getD 2 0 =
        (adams_moulton_2 (fun (_ : ℝ → ℝ) y => y + 1) (fun (x : ℝ) (_ : ℝ) => -x)
          1 0 1 (1/10)).2.getD 1 0 + 1) := by
  have hn : (numSteps (0 : ℝ) 1 (1/10)).toNat = 11 :=
    numSteps_toNat_eq 10 (by norm_num) (by norm_num)
  refine ⟨(C8_solver_output_stored_unconditionally (fun _ y => y + 1)
    (fun x _ => -x) 1 0 1 (1/10)).1, ⟨by omega, ?_⟩⟩
  have step := (C8_solver_output_stored_unconditionally (fun _ y => y + 1)
    (fun (x : ℝ) (_ : ℝ) => -x) 1 0 1 (1/10)).2.2.1 0 (by omega)
  exact step

/-- C2 (amended): for every step index `i + 2` below the grid length,
`adams_moulton_2` stores the value returned by the nonlinear stage solver
applied to the corrector residual
`x_next - (x_prev + h*(0.5*f(x_next, t_cur) + 0.5*f(x_prev, t_prev)))`,
with the PREVIOUS STATE `x_prev` as the initial guess — not the
Adams-Bashforth predictor, which is computed inside the residual evaluator
but never used; the stored value satisfies the corrector equation whenever
the solver returns exact roots. -/
theorem C2_am2_corrector_call {V : Type*} [AddCommGroup V] [Module ℝ V]
    (solver : (V → V) → V → V) (f : V → ℝ → V) (x0 : V) (t0 tf h : ℝ) :
    ∀ i, i + 2 < (numSteps t0 tf h).toNat →
      ((adams_moulton_2 solver f x0 t0 tf h).2.getD (i + 2) 0 =
        solver
          (fun xNext => xNext -
            ((adams_moulton_2 solver f x0 t0 tf h).2.getD (i + 1) 0 +
              h • ((1 / 2 : ℝ) •
                  f xNext ((adams_moulton_2 solver f x0 t0 tf h).1.getD (i + 2) 0) +
                (1 / 2 : ℝ) •
                  f ((adams_moulton_2 solver f x0 t0 tf h).2.getD (i + 1) 0)
                    ((adams_moulton_2 solver f x0 t0 tf h).1.getD (i + 1) 0))))
          ((adams_moulton_2 solver f x0 t0 tf h).2.getD (i + 1) 0)) ∧
      ((∀ (g : V → V) (y : V), g (solver g y) = 0) →
        (adams_moulton_2 solver f x0 t0 tf h).2.getD (i + 2) 0 -
          ((adams_moulton_2 solver f x0 t0 tf h).2.getD (i + 1) 0 +
            h • ((1 / 2 : ℝ) •
                f ((adams_moulton_2 solver f x0 t0 tf h).2.getD (i + 2) 0)
                  ((adams_moulton_2 solver f x0 t0 tf h).1.getD (i + 2) 0) +
              (1 / 2 : ℝ) •
                f ((adams_moulton_2 solver f x0 t0 tf h).2.getD (i + 1) 0)
                  ((adams_moulton_2 solver f x0 t0 tf h).1.getD (i + 1) 0))) = 0) := by
  intro i hi
  constructor
  · rw [am2_snd, am2_fst, getD_map_range _ hi, getD_map_range _ (by omega),
      linspace_getD t0 tf (by omega), linspace_getD t0 tf (by omega)]
    rw [am2Aux]
    rfl
  · intro hsolve
    rw [am2_snd, am2_fst, getD_map_range _ hi, getD_map_range _ (by omega),
      linspace_getD t0 tf (by omega), linspace_getD t0 tf (by omega)]
    have hstep : am2Aux solver f x0 t0 tf h (numSteps t0 tf h).toNat (i + 2) =
        solver
          (am2Residual f (am2Aux solver f x0 t0 tf h (numSteps t0 tf h).toNat i)
            (am2Aux solver f x0 t0 tf h (numSteps t0 tf h).toNat (i + 1))
            (gridT t0 tf (numSteps t0 tf h).toNat i)
            (gridT t0 tf (numSteps t0 tf h).toNat (i + 1))
            (gridT t0 tf (numSteps t0 tf h).toNat (i + 2)) h)
          (am2Aux solver f x0 t0 tf h (numSteps t0 tf h).toNat (i + 1)) := by
      rw [am2Aux]
    rw [hstep]
    exact hsolve
      (am2Residual f (am2Aux solver f x0 t0 tf h (numSteps t0 tf h).toNat i)
        (am2Aux solver f x0 t0 tf h (numSteps t0 tf h).toNat (i + 1))
        (gridT t0 tf (numSteps t0 tf h).toNat i)
        (gridT t0 tf (numSteps t0 tf h).toNat (i + 1))
        (gridT t0 tf (numSteps t0 tf h).toNat (i + 2)) h)
      (am2Aux solver f x0 t0 tf h (numSteps t0 tf h).toNat (i + 1))

/-- C2 counterexample: with a concrete solver instance that returns its
initial guess, the constant derivative `f = 1`, `x0 = 0`, `t0 = 0`,
`tf = 1`, `h = 1/2`, the value stored at step 2 (namely `1/2`, the previous
state handed to the solver as guess) differs from what the claim describes:
the solver called with the Adams-Bashforth predictor (namely `1`) as the
initial guess. -/
theorem C2_counterexample :
    (adams_moulton_2 (fun (_ : ℝ → ℝ) y => y) (fun (_ : ℝ) (_ : ℝ) => (1 : ℝ))
        0 0 1 (1/2)).2.getD 2 0 ≠
      (fun (_ : ℝ → ℝ) y => y)
        (am2Residual (fun (_ : ℝ) (_ : ℝ) => (1 : ℝ))
          ((adams_moulton_2 (fun (_ : ℝ → ℝ) y => y)
            (fun (_ : ℝ) (_ : ℝ) => (1 : ℝ)) 0 0 1 (1/2)).2.getD 0 0)
          ((adams_moulton_2 (fun (_ : ℝ → ℝ) y => y)
            (fun (_ : ℝ) (_ : ℝ) => (1 : ℝ)) 0 0 1 (1/2)).2.getD 1 0)
          ((adams_moulton_2 (fun (_ : ℝ → ℝ) y => y)
            (fun (_ : ℝ) (_ : ℝ) => (1 : ℝ)) 0 0 1 (1/2)).1.getD 0 0)
          ((adams_moulton_2 (fun (_ : ℝ → ℝ) y => y)
            (fun (_ : ℝ) (_ : ℝ) => (1 : ℝ)) 0 0 1 (1/2)).1.getD 1 0)
          ((adams_moulton_2 (fun (_ : ℝ → ℝ) y => y)
            (fun (_ : ℝ) (_ : ℝ) => (1 : ℝ)) 0 0 1 (1/2)).1.getD 2 0) (1/2))
        (ab2Predictor (fun (_ : ℝ) (_ : ℝ) => (1 : ℝ))
          ((adams_moulton_2 (fun (_ : ℝ → ℝ) y => y)
            (fun (_ : ℝ) (_ : ℝ) => (1 : ℝ)) 0 0 1 (1/2)).2.getD 0 0)
          ((adams_moulton_2 (fun (_ : ℝ → ℝ) y => y)
            (fun (_ : ℝ) (_ : ℝ) => (1 : ℝ)) 0 0 1 (1/2)).2.getD 1 0)
          ((adams_moulton_2 (fun (_ : ℝ → ℝ) y => y)
            (fun (_ : ℝ) (_ : ℝ) => (1 : ℝ)) 0 0 1 (1/2)).1.getD 0 0)
          ((adams_moulton_2 (fun (_ : ℝ → ℝ) y => y)
            (fun (_ : ℝ) (_ : ℝ) => (1 : ℝ)) 0 0 1 (1/2)).1.getD 1 0) (1/2)) := by
  have hn : (numSteps (0 : ℝ) 1 (1/2)).toNat = 3 :=
    numSteps_toNat_eq 2 (by norm_num) (by norm_num)
  rw [am2_snd, am2_fst, hn]
  rw [getD_map_range _ (by norm_num), getD_map_range _ (by norm_num),
    getD_map_range _ (by norm_num), linspace_getD 0 1 (by norm_num),
    linspace_getD 0 1 (by norm_num), linspace_getD 0 1 (by norm_num)]
  norm_num [am2Aux, ab2Predictor, smul_eq_mul]

/-- C2 witness: the amended statement applied at a concrete call. -/
theorem C2_witness :
    0 + 2 < (numSteps (0 : ℝ) 1 (1/2)).toNat ∧
    (adams_moulton_2 (fun (_ : ℝ → ℝ) y => y) (fun (_ : ℝ) (_ : ℝ) => (1 : ℝ))
        0 0 1 (1/2)).2.getD 2 0 =
      (fun (_ : ℝ → ℝ) y => y)
        (fun xNext => xNext -
          ((adams_moulton_2 (fun (_ : ℝ → ℝ) y => y)
              (fun (_ : ℝ) (_ : ℝ) => (1 : ℝ)) 0 0 1 (1/2)).2.getD 1 0 +
            (1/2 : ℝ) • ((1 / 2 : ℝ) • (1 : ℝ) + (1 / 2 : ℝ) • (1 : ℝ))))
        ((adams_moulton_2 (fun (_ : ℝ → ℝ) y => y)
          (fun (_ : ℝ) (_ : ℝ) => (1 : ℝ)) 0 0 1 (1/2)).2.getD 1 0) := by
  have hn : (numSteps (0 : ℝ) 1 (1/2)).toNat = 3 :=
    numSteps_toNat_eq 2 (by norm_num) (by norm_num)
  refine ⟨by omega, ?_⟩
  exact (C2_am2_corrector_call (fun (_ : ℝ → ℝ) y => y)
    (fun (_ : ℝ) (_ : ℝ) => (1 : ℝ)) 0 0 1 (1/2) 0 (by omega)).1

/-- C3: for every solver that solves affine residuals of the shape
`c - x` exactly (the outer DIRK residual has this shape, since the inner
stage value does not depend on the outer unknown), `custom_dirk_method` is
behavior-equivalent to the direct-assignment variant that computes
`x_i = x_prev + h * k1` with only the inner stage solve. -/
theorem C3_dirk_outer_solve_redundant {V : Type*} [AddCommGroup V]
    [Module ℝ V] (solver : (V → V) → V → V) (f : V → ℝ → V) (x0 : V)
    (t0 tf h : ℝ) (hlin : ∀ (c y : V), solver (fun x => c - x) y = c) :
    custom_dirk_method solver f x0 t0 tf h =
      custom_dirk_direct solver f x0 t0 tf h := by
  have haux : ∀ i, dirkAux solver f x0 t0 tf h (numSteps t0 tf h).toNat i =
      dirkDirectAux solver f x0 t0 tf h (numSteps t0 tf h).toNat i := by
    intro i
    induction i with
    | zero => rfl
    | succ i ih =>
      rw [dirkAux, dirkDirectAux, ih]
      exact hlin _ _
  refine Prod.ext rfl ?_
  exact List.map_congr_left (fun a _ => haux a)

/-- C3 witness: the equivalence applied with a concrete one-step Newton
solver (which solves `c - x = 0` exactly) on a concrete call. -/
theorem C3_witness :
    (∀ (c y : ℝ), (fun (g : ℝ → ℝ) (y : ℝ) => y + g y) (fun x => c - x) y = c) ∧
    custom_dirk_method (fun (g : ℝ → ℝ) (y : ℝ) => y + g y)
        (fun (x : ℝ) (_ : ℝ) => -x) 1 0 1 (1/2) =
      custom_dirk_direct (fun (g : ℝ → ℝ) (y : ℝ) => y + g y)
        (fun (x : ℝ) (_ : ℝ) => -x) 1 0 1 (1/2) :=
  ⟨fun c y => by simp,
    C3_dirk_outer_solve_redundant (fun (g : ℝ → ℝ) (y : ℝ) => y + g y)
      (fun (x : ℝ) (_ : ℝ) => -x) 1 0 1 (1/2) (fun c y => by simp)⟩

/-- One RK4 step of a constant derivative `c` advances the state by
`h * c`. -/
theorem rk4Step_const {V : Type*} [AddCommGroup V] [Module ℝ V]
    (f : V → ℝ → V) (c : V) (hf : ∀ x t, f x t = c) (x : V) (t h : ℝ) :
    rk4Step f x t h = x + h • c := by
  simp only [rk4Step, hf]
  module

/-- With a constant derivative `c`, every `adams_bashforth_2` solution
entry advances by exactly `h * c` per step index. -/
theorem ab2Aux_const {V : Type*} [AddCommGroup V] [Module ℝ V]
    (f : V → ℝ → V) (c : V) (hf : ∀ x t, f x t = c) (x0 : V)
    (t0 tf h : ℝ) (n : ℕ) :
    ∀ i, ab2Aux f x0 t0 tf h n i = x0 + ((i : ℝ) * h) • c := by
  intro i
  induction i using Nat.strong_induction_on with
  | _ i ih =>
    match i with
    | 0 => simp [ab2Aux]
    | 1 =>
      simp only [ab2Aux, hf]
      push_cast
      module
    | (j + 2) =>
      simp only [ab2Aux, hf]
      rw [ih (j + 1) (by omega)]
      push_cast
      module

/-- With a constant derivative `c`, every `adams_bashforth_4` solution
entry advances by exactly `h * c` per step index. -/
theorem ab4Aux_const {V : Type*} [AddCommGroup V] [Module ℝ V]
    (f : V → ℝ → V) (c : V) (hf : ∀ x t, f x t = c) (x0 : V)
    (t0 tf h : ℝ) (n : ℕ) :
    ∀ i, ab4Aux f x0 t0 tf h n i = x0 + ((i : ℝ) * h) • c := by
  intro i
  induction i using Nat.strong_induction_on with
  | _ i ih =>
    match i with
    | 0 => simp [ab4Aux]
    | 1 =>
      rw [ab4Aux, ih 0 (by omega), rk4Step_const f c hf]
      push_cast
      module
    | 2 =>
      rw [ab4Aux, ih 1 (by omega), rk4Step_const f c hf]
      push_cast
      module
    | 3 =>
      rw [ab4Aux, ih 2 (by omega), rk4Step_const f c hf]
      push_cast
      module
    | (j + 4) =>
      simp only [ab4Aux, hf]
      rw [ih (j + 3) (by omega)]
      push_cast
      module

/-- With a constant derivative `c` and a solver exact on residuals
`x - d`, every `adams_moulton_2` solution entry advances by exactly
`h * c` per step index. -/
theorem am2Aux_const {V : Type*} [AddCommGroup V] [Module ℝ V]
    (solver : (V → V) → V → V) (f : V → ℝ → V) (c : V)
    (hf : ∀ x t, f x t = c)
    (hs1 : ∀ (d y : V), solver (fun x => x - d) y = d) (x0 : V)
    (t0 tf h : ℝ) (n : ℕ) :
    ∀ i, am2Aux solver f x0 t0 tf h n i = x0 + ((i : ℝ) * h) • c := by
  intro i
  induction i using Nat.strong_induction_on with
  | _ i ih =>
    match i with
    | 0 => simp [am2Aux]
    | 1 =>
      simp only [am2Aux, hf]
      push_cast
      module
    | (j + 2) =>
      have hres : am2Residual f (am2Aux solver f x0 t0 tf h n j)
          (am2Aux solver f x0 t0 tf h n (j + 1)) (gridT t0 tf n j)
          (gridT t0 tf n (j + 1)) (gridT t0 tf n (j + 2)) h =
          fun x => x - (am2Aux solver f x0 t0 tf h n (j + 1) + h • c) := by
        funext x
        simp only [am2Residual, hf]
        have hc : (1 / 2 : ℝ) • c + (1 / 2 : ℝ) • c = c := by module
        rw [hc]
      rw [show am2Aux solver f x0 t0 tf h n (j + 2) =
          solver
            (am2Residual f (am2Aux solver f x0 t0 tf h n j)
              (am2Aux solver f x0 t0 tf h n (j + 1)) (gridT t0 tf n j)
              (gridT t0 tf n (j + 1)) (gridT t0 tf n (j + 2)) h)
            (am2Aux solver f x0 t0 tf h n (j + 1)) from by rw [am2Aux]]
      rw [hres, hs1, ih (j + 1) (by omega)]
      push_cast
      module

/-- With a constant derivative `c` and a solver exact on residuals
`d - x`, every `custom_dirk_method` solution entry advances by exactly
`h * c` per step index. -/
theorem dirkAux_const {V : Type*} [AddCommGroup V] [Module ℝ V]
    (solver : (V → V) → V → V) (f : V → ℝ → V) (c : V)
    (hf : ∀ x t, f x t = c)
    (hs2 : ∀ (d y : V), solver (fun x => d - x) y = d) (x0 : V)
    (t0 tf h : ℝ) (n : ℕ) :
    ∀ i, dirkAux solver f x0 t0 tf h n i = x0 + ((i : ℝ) * h) • c := by
  intro i
  induction i with
  | zero => simp [dirkAux]
  | succ j ih =>
    have hstage : stageResidual f (dirkAux solver f x0 t0 tf h n j)
        (gridT t0 tf n j) h = fun k => c - k := by
      funext k
      simp [stageResidual, hf]
    have houter : dirkOuterResidual solver f (dirkAux solver f x0 t0 tf h n j)
        (gridT t0 tf n j) h =
        fun x => (dirkAux solver f x0 t0 tf h n j + h • c) - x := by
      funext x
      simp only [dirkOuterResidual]
      rw [hstage, hs2]
    rw [dirkAux, houter, hs2, ih]
    push_cast
    module

/-- The grid times of an exact-multiple call `tf = t0 + m * h` advance by
`h` per index. -/
theorem gridT_exact_multiple (t0 h : ℝ) (m i : ℕ) (hi : i ≤ m) :
    gridT t0 (t0 + (m : ℝ) * h) (m + 1) i - t0 = (i : ℝ) * h := by
  match m with
  | 0 =>
    have hi0 : i = 0 := by omega
    subst hi0
    simp [gridT]
  | (k + 1) =>
    have hne : (k + 1 + 1 : ℕ) ≠ 1 := by omega
    rw [gridT, if_neg hne]
    have hk : ((k : ℝ) + 1) ≠ 0 := by positivity
    push_cast
    field_simp

/-- The solver `secantSolver` finds the exact root of any residual `x - d`. -/
theorem secantSolver_sub_right (d y : ℝ) :
    secantSolver (fun x => x - d) y = d := by
  show (y + 1) - ((y + 1) - d) * ((y + 1) - y) / (((y + 1) - d) - (y - d)) = d
  have hden : ((y + 1) - d) - (y - d) = (1 : ℝ) := by ring
  rw [hden, div_one]
  ring

/-- The solver `secantSolver` finds the exact root of any residual `d - x`. -/
theorem secantSolver_sub_left (d y : ℝ) :
    secantSolver (fun x => d - x) y = d := by
  show (y + 1) - (d - (y + 1)) * ((y + 1) - y) / ((d - (y + 1)) - (d - y)) = d
  have hden : (d - (y + 1)) - (d - y) = (-1 : ℝ) := by ring
  rw [hden]
  field_simp
  ring

/-- C6 (amended): the exactness law for a constant derivative `c` holds on
calls whose span is an exact multiple of the step size, `tf = t0 + m * h`
(so the grid spacing is exactly `h`), for any solver that is exact on the
affine residuals the implicit methods produce: every method returns, at
every grid point with time `t`, exactly `x0 + (t - t0) * c`.  On
non-multiple spans the trajectory still advances by `h * c` per step while
the grid times advance by the linspace spacing, so the law fails (see the
counterexample). -/
theorem C6_constant_exactness {V : Type*} [AddCommGroup V] [Module ℝ V]
    (solver : (V → V) → V → V) (f : V → ℝ → V) (c x0 : V) (t0 h : ℝ)
    (m : ℕ) (hf : ∀ x t, f x t = c) (hh : 0 < h)
    (hs1 : ∀ (d y : V), solver (fun x => x - d) y = d)
    (hs2 : ∀ (d y : V), solver (fun x => d - x) y = d) :
    ∀ out ∈ [adams_bashforth_2 f x0 t0 (t0 + (m : ℝ) * h) h,
             adams_bashforth_4 f x0 t0 (t0 + (m : ℝ) * h) h,
             adams_moulton_2 solver f x0 t0 (t0 + (m : ℝ) * h) h,
             custom_dirk_method solver f x0 t0 (t0 + (m : ℝ) * h) h],
      ∀ i, i < out.1.length →
        out.2.getD i 0 = x0 + (out.1.getD i 0 - t0) • c := by
  have harg : (t0 + (m : ℝ) * h - t0) / h = (m : ℝ) := by
    field_simp
  have hn : (numSteps t0 (t0 + (m : ℝ) * h) h).toNat = m + 1 :=
    numSteps_toNat_eq m (le_of_eq harg.symm) (by rw [harg]; norm_num)
  intro out hout
  simp only [List.mem_cons, List.not_mem_nil, or_false] at hout
  rcases hout with h1 | h1 | h1 | h1 <;> subst h1 <;> intro i hi
  · rw [ab2_fst, linspace_length, hn] at hi
    rw [ab2_snd, ab2_fst, hn, getD_map_range _ hi, linspace_getD t0 _ hi,
      ab2Aux_const f c hf x0 t0 (t0 + (m : ℝ) * h) h (m + 1) i,
      gridT_exact_multiple t0 h m i (by omega)]
  · rw [ab4_fst, linspace_length, hn] at hi
    rw [ab4_snd, ab4_fst, hn, getD_map_range _ hi, linspace_getD t0 _ hi,
      ab4Aux_const f c hf x0 t0 (t0 + (m : ℝ) * h) h (m + 1) i,
      gridT_exact_multiple t0 h m i (by omega)]
  · rw [am2_fst, linspace_length, hn] at hi
    rw [am2_snd, am2_fst, hn, getD_map_range _ hi, linspace_getD t0 _ hi,
      am2Aux_const solver f c hf hs1 x0 t0 (t0 + (m : ℝ) * h) h (m + 1) i,
      gridT_exact_multiple t0 h m i (by omega)]
  · rw [dirk_fst, linspace_length, hn] at hi
    rw [dirk_snd, dirk_fst, hn, getD_map_range _ hi, linspace_getD t0 _ hi,
      dirkAux_const solver f c hf hs2 x0 t0 (t0 + (m : ℝ) * h) h (m + 1) i,
      gridT_exact_multiple t0 h m i (by omega)]

/-- C6 counterexample: with the constant derivative `1`, `x0 = 0`,
`t0 = 0`, `tf = 1`, `h = 2/5` (a span that is not a multiple of `h`),
`adams_bashforth_2` returns `4/5` at the grid point with time `1`, not the
exact line value `0 + 1 * (1 - 0) = 1`. -/
theorem C6_counterexample :
    ¬ ((adams_bashforth_2 (fun (_ : ℝ) (_ : ℝ) => (1 : ℝ)) 0 0 1 (2/5)).2.getD 2 0 =
        0 + ((adams_bashforth_2 (fun (_ : ℝ) (_ : ℝ) => (1 : ℝ)) 0 0 1 (2/5)).1.getD 2 0 - 0)
          • (1 : ℝ)) := by
  have hn : (numSteps (0 : ℝ) 1 (2/5)).toNat = 3 :=
    numSteps_toNat_eq 2 (by norm_num) (by norm_num)
  rw [ab2_snd, ab2_fst, hn, getD_map_range _ (by norm_num),
    linspace_getD 0 1 (by norm_num)]
  norm_num [ab2Aux, gridT, smul_eq_mul]

/-- C6 witness: the amended exactness law applied on a concrete
exact-multiple call (`t0 = 1`, `h = 1/2`, `m = 4`, constant derivative
`2`) with the secant solver. -/
theorem C6_witness :
    (∀ (x t : ℝ), (fun (_ : ℝ) (_ : ℝ) => (2 : ℝ)) x t = 2) ∧ (0 : ℝ) < 1/2 ∧
    (∀ (d y : ℝ), secantSolver (fun x => x - d) y = d) ∧
    (∀ (d y : ℝ), secantSolver (fun x => d - x) y = d) ∧
    ∀ out ∈ [adams_bashforth_2 (fun (_ : ℝ) (_ : ℝ) => (2 : ℝ)) 5 1
               (1 + ((4 : ℕ) : ℝ) * (1/2)) (1/2),
             adams_bashforth_4 (fun (_ : ℝ) (_ : ℝ) => (2 : ℝ)) 5 1
               (1 + ((4 : ℕ) : ℝ) * (1/2)) (1/2),
             adams_moulton_2 secantSolver (fun (_ : ℝ) (_ : ℝ) => (2 : ℝ)) 5 1
               (1 + ((4 : ℕ) : ℝ) * (1/2)) (1/2),
             custom_dirk_method secantSolver (fun (_ : ℝ) (_ : ℝ) => (2 : ℝ)) 5 1
               (1 + ((4 : ℕ) : ℝ) * (1/2)) (1/2)],
      ∀ i, i < out.1.length →
        out.2.getD i 0 = 5 + (out.1.getD i 0 - 1) • (2 : ℝ) :=
  ⟨fun _ _ => rfl, by norm_num, secantSolver_sub_right, secantSolver_sub_left,
    C6_constant_exactness secantSolver (fun (_ : ℝ) (_ : ℝ) => (2 : ℝ)) 2 5 1
      (1/2) 4 (fun _ _ => rfl) (by norm_num) secantSolver_sub_right
      secantSolver_sub_left⟩

/-- C9: for equal-length trajectories with at least one compared entry, the
`max_abs_error` statistic of `compute_method_statistics` is the largest
elementwise absolute difference (it is attained by some entry of the
elementwise absolute error and bounds all of them), and the relative-error
computation divides only by `|ref| + 1e-10`, which is strictly positive for
every reference value. -/
theorem C9_statistics (sol ref : List (List ℚ))
    (hlen : sol.length = ref.length)
    (hne : (Model.absError sol ref).flatten ≠ []) :
    (∃ m : ℚ, Model.maxAbsError sol ref = (m : WithBot ℚ) ∧
      m ∈ (Model.absError sol ref).flatten ∧
      ∀ e ∈ (Model.absError sol ref).flatten, e ≤ m) ∧
    (∀ b : ℚ, 0 < Model.relDenom b) ∧
    Model.relError sol ref =
      List.zipWith (List.zipWith fun a b => |a - b| / Model.relDenom b)
        sol ref := by
  refine ⟨?_, ?_, rfl⟩
  · have hbot := List.maximum_ne_bot_of_ne_nil hne
    cases hmax : (Model.absError sol ref).flatten.maximum with
    | bot => exact absurd hmax hbot
    | coe m =>
      have hiff := List.maximum_eq_coe_iff.mp hmax
      exact ⟨m, by rw [Model.maxAbsError, hmax], hiff.1, hiff.2⟩
  · intro b
    rw [Model.relDenom, Model.relEps]
    positivity

/-- C9 witness: the statistics contract applied to the concrete trajectory
pair `[[1],[2]]` versus `[[0],[0]]`. -/
theorem C9_witness :
    ([[(1 : ℚ)], [2]].length = [[(0 : ℚ)], [0]].length) ∧
    ((Model.absError [[(1 : ℚ)], [2]] [[(0 : ℚ)], [0]]).flatten ≠ []) ∧
    ((∃ m : ℚ, Model.maxAbsError [[(1 : ℚ)], [2]] [[(0 : ℚ)], [0]] =
        (m : WithBot ℚ) ∧
      m ∈ (Model.absError [[(1 : ℚ)], [2]] [[(0 : ℚ)], [0]]).flatten ∧
      ∀ e ∈ (Model.absError [[(1 : ℚ)], [2]] [[(0 : ℚ)], [0]]).flatten, e ≤ m) ∧
    (∀ b : ℚ, 0 < Model.relDenom b) ∧
    Model.relError [[(1 : ℚ)], [2]] [[(0 : ℚ)], [0]] =
      List.zipWith (List.zipWith fun a b => |a - b| / Model.relDenom b)
        [[(1 : ℚ)], [2]] [[(0 : ℚ)], [0]]) :=
  ⟨rfl, by simp [Model.absError],
    C9_statistics [[(1 : ℚ)], [2]] [[(0 : ℚ)], [0]] rfl
      (by simp [Model.absError])⟩
